import Mathlib

/-!
Verification of the chunking, vector-index management and retrieval-scoping
core of the pdf-search backend (`document_service.py`, `ingestion.py`).

The Python code is embedded shallowly:
* `splitWords` models Python's `str.split()` (split on whitespace runs,
  dropping empty pieces), by structural recursion over the character list;
* `chunkWindowsFrom` models the `while current_pos < len(words)` loop of
  `_chunk_text` / `chunk_text`, emitting the word windows
  `words[current_pos : current_pos + chunk_size]` and advancing by
  `chunk_size - overlap`.  The source loop does not terminate when
  `overlap >= chunk_size`, so the Lean definition carries that bound in its
  guard; `chunkLoopFuel` is the guard-free step-for-step model of the loop,
  with an explicit fuel counter, used to state termination;
* `process_document`, `DocumentProcessor.search`, `save_index` and
  `load_existing_index` model the methods of `DocumentProcessor`, with the
  embedding model abstracted to an arbitrary function `embed : String → V`
  and the FAISS index modelled per its specified contract (see
  `FaissIndex.search` below);
* the two on-disk files are modelled by `DiskFiles`, an optional stored
  value per file (`none` = the file is missing, raising `FileNotFoundError`).
-/

namespace PdfSearch

/-- Model of Python `str.split()` (no separator): accumulate maximal runs of
non-whitespace characters, dropping whitespace runs.  `acc` holds the current
word's characters in reverse. -/
def splitAcc : List Char → List Char → List String
  | [], acc => if acc.isEmpty then [] else [String.mk acc.reverse]
  | c :: cs, acc =>
    if c.isWhitespace then
      if acc.isEmpty then splitAcc cs [] else String.mk acc.reverse :: splitAcc cs []
    else splitAcc cs (c :: acc)

/-- `text.split()` in Python: the whitespace-separated words of `text`. -/
def splitWords (text : String) : List String :=
  splitAcc text.toList []

/-- The word windows emitted by the chunking loop of `_chunk_text` /
`chunk_text`, starting from word position `pos`:
`words[pos : pos + chunk_size]`, then advance `pos` by
`chunk_size - overlap`; stop once `pos` reaches or passes the end.
The source loop runs forever when `overlap ≥ chunk_size`, so that bound is
part of the guard here. -/
def chunkWindowsFrom (words : List String) (chunk_size overlap : ℕ) (pos : ℕ) :
    List (List String) :=
  if h : overlap < chunk_size ∧ pos < words.length then
    ((words.drop pos).take chunk_size) ::
      chunkWindowsFrom words chunk_size overlap (pos + (chunk_size - overlap))
  else []
termination_by words.length - pos
decreasing_by
  have h1 : overlap < chunk_size := h.1
  have h2 : pos < words.length := h.2
  omega

/-- All word windows of the chunking loop, from position 0. -/
def chunkWindows (words : List String) (chunk_size overlap : ℕ) : List (List String) :=
  chunkWindowsFrom words chunk_size overlap 0

/-- `chunk_text(text, chunk_size, overlap)` (`ingestion.py`) =
`DocumentProcessor._chunk_text` (`document_service.py`): split `text` into
words, return `[]` if there are none, else join each window of the loop with
single spaces. -/
def chunk_text (text : String) (chunk_size : ℕ := 300) (overlap : ℕ := 50) :
    List String :=
  let words := splitWords text
  if words.isEmpty then []
  else (chunkWindowsFrom words chunk_size overlap 0).map (fun ws => " ".intercalate ws)

/-- The chunking loop modelled step for step with an explicit fuel counter
and no termination guard: one unit of fuel per iteration of
`while current_pos < len(words)`; `none` means the fuel ran out before the
loop exited (in particular the loop diverges when the stride
`chunk_size - overlap` is zero). -/
def chunkLoopFuel (words : List String) (chunk_size overlap : ℕ) :
    ℕ → ℕ → Option (List (List String))
  | 0, _ => none
  | fuel + 1, pos =>
    if pos < words.length then
      (chunkLoopFuel words chunk_size overlap fuel (pos + (chunk_size - overlap))).map
        (fun rest => ((words.drop pos).take chunk_size) :: rest)
    else some []

/-- One metadata record of `metadata.json`: the dict built per chunk in
`DocumentProcessor.process_document`. -/
structure ChunkRecord where
  document_id : Int
  pdf_name : String
  page : ℕ
  chunk_index : ℕ
  content : String
deriving DecidableEq

/-- The FAISS index, modelled as its dimension plus the ordered list of
stored vectors (vector type `V` abstract, produced only by the embedder). -/
structure FaissIndex (V : Type) where
  d : ℕ
  vecs : List V
deriving DecidableEq

/-- `faiss.IndexFlatL2(dimension)`: a new empty index. -/
def IndexFlatL2 (V : Type) (dimension : ℕ) : FaissIndex V :=
  { d := dimension, vecs := [] }

/-- `index.add(embeddings)`: append the batch in order. -/
def FaissIndex.add {V : Type} (idx : FaissIndex V) (embeddings : List V) :
    FaissIndex V :=
  { d := idx.d, vecs := idx.vecs ++ embeddings }

/-- The in-memory state of a `DocumentProcessor`: `self.index` and
`self.metadata`. -/
structure ProcState (V : Type) where
  index : FaissIndex V
  metadata : List ChunkRecord
deriving DecidableEq

/-- A document handed to `process_document`, after the extraction concern is
separated out: a `.pdf` is its per-page extracted texts (`page.extract_text()`
results, possibly empty), a `.txt` is its full content, and any other
extension matches neither `endswith` branch. -/
inductive Doc where
  | pdf (pages : List String)
  | txt (content : String)
  | unsupported
deriving DecidableEq

/-- The records built for one page's text in `process_document`:
`enumerate(self._chunk_text(text))` with the page's number and the document
fields attached (chunk_index restarts at 0 on every page). -/
def pageRecords (document_id : Int) (original_name : String) (page : ℕ)
    (text : String) : List ChunkRecord :=
  (chunk_text text).enum.map fun ic =>
    { document_id := document_id, pdf_name := original_name, page := page,
      chunk_index := ic.1, content := ic.2 }

/-- `new_metadata` as built by the extraction loops of `process_document`:
for a PDF, pages are numbered from 1 (`enumerate(reader.pages, 1)`) and pages
whose extracted text is empty are skipped (`if text:`); a `.txt` file is one
page numbered 1, processed only when its content is non-empty; an unsupported
extension produces nothing. -/
def extractRecords (document_id : Int) (original_name : String) :
    Doc → List ChunkRecord
  | .pdf pages =>
    pages.enum.flatMap fun pt =>
      if pt.2 ≠ "" then pageRecords document_id original_name (pt.1 + 1) pt.2 else []
  | .txt content =>
    if content ≠ "" then pageRecords document_id original_name 1 content else []
  | .unsupported => []

/-- The dict returned by `process_document`. -/
structure IngestResult where
  chunks_processed : ℕ
  pages_processed : ℕ
  document_id : Int
deriving DecidableEq

/-- `DocumentProcessor.process_document`: build `all_chunks` and
`new_metadata` together (the i-th chunk is the i-th record's `content`), fail
with the wrapped `ValueError` when nothing was extracted, otherwise embed the
chunks in one batch, `index.add` the embeddings, extend the metadata, and
report the counts (`pages_processed` is the number of distinct pages among
the new records). -/
def process_document {V : Type} (embed : String → V) (s : ProcState V)
    (doc : Doc) (document_id : Int) (original_name : String) :
    ProcState V × Except String IngestResult :=
  let new_metadata := extractRecords document_id original_name doc
  let all_chunks := new_metadata.map (fun r => r.content)
  if all_chunks.isEmpty then
    (s, .error
      "Error reading or processing document: No text could be extracted from the document.")
  else
    let embeddings := all_chunks.map embed
    ({ index := s.index.add embeddings, metadata := s.metadata ++ new_metadata },
     .ok { chunks_processed := all_chunks.length,
           pages_processed := (new_metadata.map (fun r => r.page)).dedup.length,
           document_id := document_id })

/-- The two files written by `_save_index` / read by `_load_existing_index`;
`none` models a missing file (reading it raises `FileNotFoundError`). -/
structure DiskFiles (V : Type) where
  index_file : Option (FaissIndex V)
  metadata_file : Option (List ChunkRecord)
deriving DecidableEq

/-- `DocumentProcessor._save_index`: write the index, then the metadata. -/
def save_index {V : Type} (s : ProcState V) (_fs : DiskFiles V) : DiskFiles V :=
  { index_file := some s.index, metadata_file := some s.metadata }

/-- `DocumentProcessor._load_existing_index`: read the index file, then the
metadata file; a `FileNotFoundError` from either read lands in the single
`except` handler, which returns a fresh empty 384-dimension index and empty
metadata (discarding an index that was already read successfully). -/
def load_existing_index {V : Type} (fs : DiskFiles V) :
    FaissIndex V × List ChunkRecord :=
  match fs.index_file with
  | none => (IndexFlatL2 V 384, [])
  | some idx =>
    match fs.metadata_file with
    | none => (IndexFlatL2 V 384, [])
    | some metadata => (idx, metadata)

/-- Comparison used to model FAISS's ranking of candidates: ascending
distance, ties broken by insertion order (row index). -/
def searchLe (a b : ℕ × ℚ) : Prop :=
  a.2 < b.2 ∨ (a.2 = b.2 ∧ a.1 ≤ b.1)

instance : DecidableRel searchLe := fun a b =>
  inferInstanceAs (Decidable (a.2 < b.2 ∨ (a.2 = b.2 ∧ a.1 ≤ b.1)))

/-- Modelled from the spec: `faiss.IndexFlatL2.search` is an external library
call, specified in §4.3 as returning the `(row_index, distance)` pairs of the
at most `k` nearest stored vectors, ascending by distance, ties broken by
insertion order, fewer than `k` when the index holds fewer than `k` vectors.
The distance function is abstracted to `dist` with rational values. -/
def FaissIndex.search {V : Type} (dist : V → V → ℚ) (idx : FaissIndex V)
    (query : V) (k : ℕ) : List (ℕ × ℚ) :=
  (List.insertionSort searchLe
    (idx.vecs.enum.map (fun iv => (iv.1, dist query iv.2)))).take k

/-- One entry of the list returned by `DocumentProcessor.search`. -/
structure SearchResult where
  content : String
  pdf_name : String
  page : ℕ
  distance : ℚ
deriving DecidableEq

/-- `DocumentProcessor.search`: embed the query, fetch the top-`k`
candidates, and keep — in candidate order — those whose row index is below
the metadata length (the desync guard) and, when `document_id` is given,
whose record carries that `document_id`. -/
def DocumentProcessor.search {V : Type} (dist : V → V → ℚ) (embed : String → V)
    (s : ProcState V) (query : String) (document_id : Option Int) (k : ℕ) :
    List SearchResult :=
  let query_embedding := embed query
  let cands := s.index.search dist query_embedding k
  cands.filterMap fun c =>
    if h : c.1 < s.metadata.length then
      let chunk_info := s.metadata.get ⟨c.1, h⟩
      if document_id = none ∨ document_id = some chunk_info.document_id then
        some { content := chunk_info.content, pdf_name := chunk_info.pdf_name,
               page := chunk_info.page, distance := c.2 }
      else none
    else none

/-! ## Chunker lemmas -/

theorem chunkWindowsFrom_cons (words : List String) (cs ov pos : ℕ)
    (h1 : ov < cs) (h2 : pos < words.length) :
    chunkWindowsFrom words cs ov pos =
      ((words.drop pos).take cs) :: chunkWindowsFrom words cs ov (pos + (cs - ov)) := by
  rw [chunkWindowsFrom]
  simp [h1, h2]

theorem chunkWindowsFrom_nil (words : List String) (cs ov pos : ℕ)
    (h : words.length ≤ pos) :
    chunkWindowsFrom words cs ov pos = [] := by
  rw [chunkWindowsFrom]
  simp
  omega

/-- The `i`-th window emitted from position `pos` starts at
`pos + i * (chunk_size - overlap)`. -/
theorem chunkWindowsFrom_getElem? (words : List String) (cs ov : ℕ) (h : ov < cs) :
    ∀ (i pos : ℕ),
      (chunkWindowsFrom words cs ov pos)[i]? =
        if pos + i * (cs - ov) < words.length then
          some ((words.drop (pos + i * (cs - ov))).take cs)
        else none := by
  intro i
  induction i with
  | zero =>
    intro pos
    by_cases hp : pos < words.length
    · rw [chunkWindowsFrom_cons words cs ov pos h hp]
      simp [hp]
    · rw [chunkWindowsFrom_nil words cs ov pos (by omega)]
      have hc : ¬ pos + 0 * (cs - ov) < words.length := by omega
      simp [hp, hc]
  | succ i ih =>
    intro pos
    by_cases hp : pos < words.length
    · rw [chunkWindowsFrom_cons words cs ov pos h hp]
      have := ih (pos + (cs - ov))
      simp only [List.getElem?_cons_succ]
      rw [this]
      have harith : pos + (cs - ov) + i * (cs - ov) = pos + (i + 1) * (cs - ov) := by ring
      rw [harith]
    · rw [chunkWindowsFrom_nil words cs ov pos (by omega)]
      have : ¬ pos + (i + 1) * (cs - ov) < words.length := by omega
      simp [this]

/-- Dropping the first `overlap` words of every window from position `pos`
and concatenating yields the word suffix from `pos + overlap`: the windows
tile the word sequence with stride `chunk_size - overlap` after the overlap
is removed. -/
theorem chunkWindowsFrom_drop_flatten (words : List String) (cs ov : ℕ) (h : ov < cs) :
    ∀ (n pos : ℕ), words.length - pos ≤ n →
      ((chunkWindowsFrom words cs ov pos).map (fun w => w.drop ov)).flatten =
        words.drop (pos + ov) := by
  intro n
  induction n with
  | zero =>
    intro pos hn
    rw [chunkWindowsFrom_nil words cs ov pos (by omega)]
    have hd : words.drop (pos + ov) = [] := List.drop_eq_nil_of_le (by omega)
    rw [hd]
    rfl
  | succ n ih =>
    intro pos hn
    by_cases hp : pos < words.length
    · rw [chunkWindowsFrom_cons words cs ov pos h hp]
      rw [List.map_cons, List.flatten_cons]
      rw [ih (pos + (cs - ov)) (by omega)]
      have e1 : ((words.drop pos).take cs).drop ov = (words.drop (pos + ov)).take (cs - ov) := by
        rw [List.drop_take, List.drop_drop]
      have e2 : words.drop (pos + (cs - ov) + ov) = (words.drop (pos + ov)).drop (cs - ov) := by
        rw [List.drop_drop]
        congr 1
        omega
      rw [e1, e2]
      exact List.take_append_drop (cs - ov) (words.drop (pos + ov))
    · rw [chunkWindowsFrom_nil words cs ov pos (by omega)]
      have hd : words.drop (pos + ov) = [] := List.drop_eq_nil_of_le (by omega)
      rw [hd]
      rfl

/-- Helper: when the word count is at most the stride, the loop emits exactly
one window holding all the words. -/
theorem chunk_text_single_of_le_stride (text : String) (cs ov : ℕ) (hov : ov < cs)
    (hne : splitWords text ≠ []) (hlen : (splitWords text).length ≤ cs - ov) :
    chunk_text text cs ov = [" ".intercalate (splitWords text)] := by
  unfold chunk_text
  have hne' : ¬ (splitWords text).isEmpty := by
    simpa [List.isEmpty_iff] using hne
  simp only [hne', if_false]
  have hpos : 0 < (splitWords text).length := by
    cases hw : splitWords text with
    | nil => exact absurd hw hne
    | cons a l => simp [hw]
  rw [chunkWindowsFrom_cons _ cs ov 0 hov hpos]
  rw [chunkWindowsFrom_nil _ cs ov _ (by omega)]
  rw [List.drop_zero, List.take_of_length_le (by omega)]
  rfl

/-- C2 (claim): with `chunk_size > overlap`, chunking splits the text into
whitespace-separated words and windows them: the `i`-th chunk is the words at
positions `[i*(chunk_size-overlap), i*(chunk_size-overlap)+chunk_size)`
joined with single spaces; every chunk is such a window of at most
`chunk_size` words; dropping the first `overlap` words of every window after
the first and concatenating reconstructs the full word sequence; and no words
yield no chunks. -/
theorem chunk_text_spec (text : String) (cs ov : ℕ) (hov : ov < cs) :
    (splitWords text = [] → chunk_text text cs ov = []) ∧
    (∀ i : ℕ, (chunk_text text cs ov)[i]? =
      if i * (cs - ov) < (splitWords text).length then
        some (" ".intercalate (((splitWords text).drop (i * (cs - ov))).take cs))
      else none) ∧
    (∀ c ∈ chunk_text text cs ov, ∃ i : ℕ,
      c = " ".intercalate (((splitWords text).drop (i * (cs - ov))).take cs) ∧
      (((splitWords text).drop (i * (cs - ov))).take cs).length ≤ cs) ∧
    (∀ w ws, chunkWindows (splitWords text) cs ov = w :: ws →
      w ++ (ws.map (fun x => x.drop ov)).flatten = splitWords text) := by
  have hget : ∀ i : ℕ, (chunk_text text cs ov)[i]? =
      if i * (cs - ov) < (splitWords text).length then
        some (" ".intercalate (((splitWords text).drop (i * (cs - ov))).take cs))
      else none := by
    intro i
    unfold chunk_text
    by_cases hw : (splitWords text).isEmpty
    · have hlen0 : (splitWords text).length = 0 := by
        simpa [List.isEmpty_iff, List.length_eq_zero] using hw
      simp [hw, hlen0]
    · rw [if_neg hw]
      rw [List.getElem?_map]
      rw [chunkWindowsFrom_getElem? (splitWords text) cs ov hov i 0]
      simp only [Nat.zero_add]
      by_cases hc : i * (cs - ov) < (splitWords text).length
      · simp [hc]
      · simp [hc]
  refine ⟨?_, hget, ?_, ?_⟩
  · intro h
    unfold chunk_text
    simp [h]
  · intro c hc
    obtain ⟨i, hi⟩ := List.mem_iff_getElem?.mp hc
    refine ⟨i, ?_, List.length_take_le _ _⟩
    rw [hget i] at hi
    by_cases hcond : i * (cs - ov) < (splitWords text).length
    · rw [if_pos hcond] at hi
      exact (Option.some.injEq _ _ ▸ hi).symm
    · rw [if_neg hcond] at hi
      exact absurd hi (by simp)
  · intro w ws hws
    unfold chunkWindows at hws
    by_cases hpos : 0 < (splitWords text).length
    · rw [chunkWindowsFrom_cons _ cs ov 0 hov hpos] at hws
      injection hws with hw hws'
      have hflat := chunkWindowsFrom_drop_flatten (splitWords text) cs ov hov
        (splitWords text).length (0 + (cs - ov)) (by omega)
      rw [hws'] at hflat
      have harith : 0 + (cs - ov) + ov = cs := by omega
      rw [harith] at hflat
      rw [hflat, ← hw, List.drop_zero]
      exact List.take_append_drop cs (splitWords text)
    · rw [chunkWindowsFrom_nil _ cs ov 0 (by omega)] at hws
      exact absurd hws (by simp)

/-- Witness for C2 at text `"a b c d e"`, `chunk_size = 3`, `overlap = 1`. -/
theorem chunk_text_spec_witness :
    (chunk_text "a b c d e" 3 1)[1]? = some "c d e" ∧
    (chunk_text "a b c d e" 3 1)[3]? = none := by
  have h := chunk_text_spec "a b c d e" 3 1 (by decide)
  have h1 := h.2.1 1
  have h3 := h.2.1 3
  constructor
  · rw [h1]; decide
  · rw [h3]; decide

/-- C9 (claim): with a strictly positive stride `chunk_size - overlap`, the
chunking loop terminates: `words.length - pos + 1` iterations of fuel always
suffice, and the result is the total function `chunkWindowsFrom`. -/
theorem chunk_loop_terminates (words : List String) (cs ov : ℕ) (hov : ov < cs) :
    ∀ (fuel pos : ℕ), words.length - pos < fuel →
      chunkLoopFuel words cs ov fuel pos = some (chunkWindowsFrom words cs ov pos) := by
  intro fuel
  induction fuel with
  | zero => intro pos h; omega
  | succ fuel ih =>
    intro pos h
    by_cases hp : pos < words.length
    · rw [chunkWindowsFrom_cons words cs ov pos hov hp]
      unfold chunkLoopFuel
      rw [if_pos hp]
      rw [ih (pos + (cs - ov)) (by omega)]
      rfl
    · rw [chunkWindowsFrom_nil words cs ov pos (by omega)]
      unfold chunkLoopFuel
      rw [if_neg hp]

/-- Witness for C9: four units of fuel settle a three-word text with
`chunk_size = 2`, `overlap = 1`. -/
theorem chunk_loop_terminates_witness :
    chunkLoopFuel ["a", "b", "c"] 2 1 4 0 =
      some (chunkWindowsFrom ["a", "b", "c"] 2 1 0) :=
  chunk_loop_terminates ["a", "b", "c"] 2 1 (by decide) 4 0 (by decide)

/-! ## Short-text chunking and ingestion counters -/

theorem splitWords_empty : splitWords "" = [] := rfl

/-- Evaluation of `process_document` on the success path. -/
theorem process_document_eval {V : Type} (embed : String → V) (s : ProcState V)
    (doc : Doc) (did : Int) (name : String)
    (hne : ¬ ((extractRecords did name doc).map (fun r => r.content)).isEmpty) :
    process_document embed s doc did name =
      ({ index := s.index.add
           (((extractRecords did name doc).map (fun r => r.content)).map embed),
         metadata := s.metadata ++ extractRecords did name doc },
       Except.ok
         { chunks_processed := ((extractRecords did name doc).map (fun r => r.content)).length,
           pages_processed := ((extractRecords did name doc).map (fun r => r.page)).dedup.length,
           document_id := did }) := by
  simp only [process_document]
  rw [if_neg hne]

/-- Evaluation of `process_document` on the failure path. -/
theorem process_document_fail {V : Type} (embed : String → V) (s : ProcState V)
    (doc : Doc) (did : Int) (name : String)
    (hemp : ((extractRecords did name doc).map (fun r => r.content)).isEmpty) :
    process_document embed s doc did name =
      (s, Except.error
        "Error reading or processing document: No text could be extracted from the document.") := by
  simp only [process_document]
  rw [if_pos hemp]

/-- C7 (counterexample): a non-empty text whose word count is at most
`chunk_size` need not produce exactly one chunk — whenever the word count
exceeds the stride `chunk_size - overlap`, the loop emits further windows.
Here `"a b c"` has 3 ≤ 3 words but chunks to `["a b c", "b c", "c"]`. -/
theorem chunk_short_text_counterexample :
    splitWords "a b c" ≠ [] ∧ (splitWords "a b c").length ≤ 3 ∧ 2 < 3 ∧
    (chunk_text "a b c" 3 2).length ≠ 1 := by
  refine ⟨by decide, by decide, by decide, ?_⟩
  have h : chunk_text "a b c" 3 2 = ["a b c", "b c", "c"] := by
    simp [chunk_text, chunkWindowsFrom, splitWords, splitAcc]
    decide
  rw [h]
  decide

/-- C7 (amended): for every non-empty text whose word count is at most the
stride `chunk_size - overlap` (in particular a single word, or ten words at
the defaults 300/50), chunking yields exactly one chunk holding all the
words; and ingesting such a non-empty `.txt` document (word count at most
250 at the defaults) reports `chunks_processed = 1` and
`pages_processed = 1`. -/
theorem chunk_short_text_single (content : String) (cs ov : ℕ) (hov : ov < cs)
    (hne : splitWords content ≠ [])
    (hlen : (splitWords content).length ≤ cs - ov) :
    chunk_text content cs ov = [" ".intercalate (splitWords content)] ∧
    ((splitWords content).length ≤ 250 →
      ∀ (V : Type) (embed : String → V) (s : ProcState V) (did : Int) (name : String),
        process_document embed s (.txt content) did name =
          ({ index := s.index.add [embed (" ".intercalate (splitWords content))],
             metadata := s.metadata ++
               [{ document_id := did, pdf_name := name, page := 1, chunk_index := 0,
                  content := " ".intercalate (splitWords content) }] },
           Except.ok { chunks_processed := 1, pages_processed := 1, document_id := did })) := by
  constructor
  · exact chunk_text_single_of_le_stride content cs ov hov hne hlen
  · intro h250 V embed s did name
    have hcontent : content ≠ "" := by
      intro hc
      rw [hc, splitWords_empty] at hne
      exact hne rfl
    have hchunk : chunk_text content = [" ".intercalate (splitWords content)] :=
      chunk_text_single_of_le_stride content 300 50 (by omega) hne (by omega)
    have hext : extractRecords did name (.txt content) =
        [{ document_id := did, pdf_name := name, page := 1, chunk_index := 0,
           content := " ".intercalate (splitWords content) }] := by
      show (if content ≠ "" then pageRecords did name 1 content else []) = _
      rw [if_pos hcontent]
      unfold pageRecords
      rw [hchunk]
      rfl
    have hne' : ¬ ((extractRecords did name (.txt content)).map
        (fun r => r.content)).isEmpty := by
      rw [hext]; simp
    rw [process_document_eval embed s (.txt content) did name hne', hext]
    simp

/-- Witness for the amended C7 at the two-word text `"hello world"`. -/
theorem chunk_short_text_single_witness :
    chunk_text "hello world" 300 50 = [" ".intercalate (splitWords "hello world")] :=
  (chunk_short_text_single "hello world" 300 50 (by decide) (by decide) (by decide)).1

/-! ## Ingestion: parallel-array invariant and failure atomicity -/

/-- C1 (claim): a completed `process_document` call preserves the
parallel-array invariant — afterwards the metadata store and the vector
index have equal length, the new metadata block is exactly the extracted
records, and at every appended position the vector is the embedding of the
metadata record's content at the same position. -/
theorem process_document_parallel {V : Type} (embed : String → V)
    (s s' : ProcState V) (doc : Doc) (did : Int) (name : String) (r : IngestResult)
    (hlen : s.index.vecs.length = s.metadata.length)
    (h : process_document embed s doc did name = (s', Except.ok r)) :
    s'.index.vecs.length = s'.metadata.length ∧
    s'.metadata = s.metadata ++ extractRecords did name doc ∧
    ∀ i : ℕ, s.metadata.length ≤ i →
      s'.index.vecs[i]? = (s'.metadata[i]?).map (fun rec => embed rec.content) := by
  by_cases he : ((extractRecords did name doc).map (fun r => r.content)).isEmpty
  · rw [process_document_fail embed s doc did name he] at h
    exact absurd (congrArg Prod.snd h) (by simp)
  · rw [process_document_eval embed s doc did name he] at h
    rw [Prod.mk.injEq] at h
    obtain ⟨hs', hr⟩ := h
    subst hs'
    refine ⟨?_, rfl, ?_⟩
    · simp [FaissIndex.add, hlen]
    · intro i hi
      have hvec : (s.index.add (((extractRecords did name doc).map
          (fun r => r.content)).map embed)).vecs =
          s.index.vecs ++ (((extractRecords did name doc).map
            (fun r => r.content)).map embed) := rfl
      show (s.index.add (((extractRecords did name doc).map
          (fun r => r.content)).map embed)).vecs[i]? = _
      rw [hvec]
      rw [List.getElem?_append_right (by omega)]
      rw [List.getElem?_append_right (by omega)]
      rw [hlen]
      rw [List.getElem?_map, List.getElem?_map]
      rw [Option.map_map]
      rfl

/-- Witness for C1: ingesting the one-word text `"hello"` into an empty
state, with `String.length` as the embedder, leaves equal-length parallel
containers. -/
theorem process_document_parallel_witness :
    (⟨⟨384, [5]⟩, [⟨1, "a.txt", 1, 0, "hello"⟩]⟩ : ProcState ℕ).index.vecs.length =
      (⟨⟨384, [5]⟩, [⟨1, "a.txt", 1, 0, "hello"⟩]⟩ : ProcState ℕ).metadata.length :=
  (process_document_parallel (fun t => t.length) ⟨⟨384, []⟩, []⟩
    ⟨⟨384, [5]⟩, [⟨1, "a.txt", 1, 0, "hello"⟩]⟩ (.txt "hello") 1 "a.txt" ⟨1, 1, 1⟩ rfl
    (by simp [process_document, extractRecords, pageRecords, chunk_text,
          chunkWindowsFrom, splitWords, splitAcc, FaissIndex.add]
        decide)).1

theorem extractRecords_pdf_all_empty (did : Int) (name : String)
    (pages : List String) (hp : ∀ p ∈ pages, p = "") :
    extractRecords did name (.pdf pages) = [] := by
  have hstep : extractRecords did name (.pdf pages) =
      pages.enum.flatMap
        (fun pt => if pt.2 ≠ "" then pageRecords did name (pt.1 + 1) pt.2 else []) := rfl
  rw [hstep, List.enum_eq_enumFrom]
  -- generalize the start index of the page enumeration
  have haux : ∀ (k : ℕ) (qs : List String), (∀ p ∈ qs, p = "") →
      ((List.enumFrom k qs).flatMap fun pt =>
        if pt.2 ≠ "" then pageRecords did name (pt.1 + 1) pt.2 else []) = [] := by
    intro k qs
    induction qs generalizing k with
    | nil => intro _; rfl
    | cons q rs ihq =>
      intro hq
      rw [List.enumFrom_cons, List.flatMap_cons]
      have hq0 : q = "" := hq q (by simp)
      rw [hq0]
      simp only [ne_eq, not_true_eq_false, if_false, List.nil_append]
      exact ihq (k + 1) (fun p hp' => hq p (by simp [hp']))
  exact haux 0 pages hp

/-- C4 (claim): when no text can be extracted — an unsupported extension, a
PDF whose pages all extract to empty text, or an empty text file —
`process_document` fails with the `NoExtractableText` error and the state is
returned unchanged: index size and metadata length after the failed call
equal their values before it. -/
theorem process_document_no_text {V : Type} (embed : String → V) (s : ProcState V)
    (did : Int) (name : String) (doc : Doc)
    (h : doc = .unsupported ∨ (∃ pages, doc = .pdf pages ∧ ∀ p ∈ pages, p = "") ∨
      doc = .txt "") :
    process_document embed s doc did name =
      (s, Except.error
        "Error reading or processing document: No text could be extracted from the document.") := by
  have hext : extractRecords did name doc = [] := by
    rcases h with h | ⟨pages, hdoc, hp⟩ | h
    · rw [h]; rfl
    · rw [hdoc]; exact extractRecords_pdf_all_empty did name pages hp
    · rw [h]; rfl
  exact process_document_fail embed s doc did name (by rw [hext]; rfl)

/-- Witness for C4: ingesting an empty `.txt` into a non-empty state leaves
the state untouched and reports the error. -/
theorem process_document_no_text_witness :
    process_document (fun t => t.length) (⟨⟨384, [7]⟩, [⟨9, "z.txt", 1, 0, "w"⟩]⟩ : ProcState ℕ)
      (.txt "") 1 "a.txt" =
    (⟨⟨384, [7]⟩, [⟨9, "z.txt", 1, 0, "w"⟩]⟩,
     Except.error
       "Error reading or processing document: No text could be extracted from the document.") :=
  process_document_no_text (fun t => t.length) _ 1 "a.txt" (.txt "") (Or.inr (Or.inr rfl))

/-! ## Ingestion ordering: page order, per-page chunk_index reset -/

theorem pageRecords_page (did : Int) (name : String) (pn : ℕ) (t : String) :
    ∀ r ∈ pageRecords did name pn t, r.page = pn := by
  intro r hr
  simp only [pageRecords, List.mem_map] at hr
  obtain ⟨ic, _, rfl⟩ := hr
  rfl

theorem pageRecords_map_chunk_index (did : Int) (name : String) (pn : ℕ) (t : String) :
    (pageRecords did name pn t).map (fun r => r.chunk_index) =
      List.range (chunk_text t).length := by
  unfold pageRecords
  rw [List.map_map]
  exact List.enum_map_fst (chunk_text t)

theorem pageRecords_length (did : Int) (name : String) (pn : ℕ) (t : String) :
    (pageRecords did name pn t).length = (chunk_text t).length := by
  unfold pageRecords
  rw [List.length_map, List.enum_length]

theorem pageRecords_pairwise (did : Int) (name : String) (pn : ℕ) (t : String) :
    List.Pairwise (fun a b => a.chunk_index < b.chunk_index) (pageRecords did name pn t) := by
  have h := pageRecords_map_chunk_index did name pn t
  have hr := List.pairwise_lt_range (chunk_text t).length
  rw [← h] at hr
  exact List.pairwise_map.mp hr

theorem pageRecords_head (did : Int) (name : String) (pn : ℕ) (t : String)
    (r : ChunkRecord) (h : (pageRecords did name pn t).head? = some r) :
    r.chunk_index = 0 := by
  unfold pageRecords at h
  rw [List.head?_map] at h
  cases hc : chunk_text t with
  | nil => rw [hc] at h; exact absurd h (by simp)
  | cons c cl =>
    rw [hc, List.enum_eq_enumFrom, List.enumFrom_cons, List.head?_cons] at h
    have hr : r = (⟨did, name, pn, 0, c⟩ : ChunkRecord) := by
      simpa using h.symm
    rw [hr]

theorem pdf_records_page_lb (did : Int) (name : String) :
    ∀ (pages : List String) (k : ℕ) (r : ChunkRecord),
      r ∈ (List.enumFrom k pages).flatMap
        (fun pt => if pt.2 ≠ "" then pageRecords did name (pt.1 + 1) pt.2 else []) →
      k + 1 ≤ r.page := by
  intro pages
  induction pages with
  | nil => intro k r hr; simp at hr
  | cons t ps ih =>
    intro k r hr
    rw [List.enumFrom_cons, List.flatMap_cons, List.mem_append] at hr
    rcases hr with hr | hr
    · by_cases ht : t ≠ ""
      · rw [if_pos ht] at hr
        have := pageRecords_page did name (k + 1) t r hr
        omega
      · rw [if_neg ht] at hr; simp at hr
    · have := ih (k + 1) r hr
      omega

theorem pdf_records_pairwise (did : Int) (name : String) :
    ∀ (pages : List String) (k : ℕ),
      List.Pairwise
        (fun a b => a.page < b.page ∨ (a.page = b.page ∧ a.chunk_index < b.chunk_index))
        ((List.enumFrom k pages).flatMap
          (fun pt => if pt.2 ≠ "" then pageRecords did name (pt.1 + 1) pt.2 else [])) := by
  intro pages
  induction pages with
  | nil => intro k; exact List.Pairwise.nil
  | cons t ps ih =>
    intro k
    rw [List.enumFrom_cons, List.flatMap_cons, List.pairwise_append]
    refine ⟨?_, ih (k + 1), ?_⟩
    · by_cases ht : t ≠ ""
      · rw [if_pos ht]
        refine List.Pairwise.imp_of_mem ?_ (pageRecords_pairwise did name (k + 1) t)
        intro a b ha hb hab
        right
        exact ⟨by rw [pageRecords_page did name (k + 1) t a ha,
          pageRecords_page did name (k + 1) t b hb], hab⟩
      · rw [if_neg ht]; exact List.Pairwise.nil
    · intro a ha b hb
      have hb' := pdf_records_page_lb did name ps (k + 1) b hb
      by_cases ht : t ≠ ""
      · rw [if_pos ht] at ha
        have ha' := pageRecords_page did name (k + 1) t a ha
        left; omega
      · rw [if_neg ht] at ha; simp at ha

theorem pdf_records_filter (did : Int) (name : String) :
    ∀ (pages : List String) (k p : ℕ),
      ((((List.enumFrom k pages).flatMap
          (fun pt => if pt.2 ≠ "" then pageRecords did name (pt.1 + 1) pt.2 else [])).filter
            (fun r => r.page == p)).map (fun r => r.chunk_index)) =
        List.range
          ((((List.enumFrom k pages).flatMap
            (fun pt => if pt.2 ≠ "" then pageRecords did name (pt.1 + 1) pt.2 else [])).filter
              (fun r => r.page == p)).length) := by
  intro pages
  induction pages with
  | nil => intro k p; rfl
  | cons t ps ih =>
    intro k p
    rw [List.enumFrom_cons, List.flatMap_cons, List.filter_append]
    by_cases hp : p = k + 1
    · subst hp
      have hrest : (((List.enumFrom (k + 1) ps).flatMap
          (fun pt => if pt.2 ≠ "" then pageRecords did name (pt.1 + 1) pt.2 else [])).filter
            (fun r => r.page == k + 1)) = [] := by
        rw [List.filter_eq_nil_iff]
        intro a ha
        have := pdf_records_page_lb did name ps (k + 1) a ha
        simp only [beq_iff_eq]
        omega
      rw [hrest, List.append_nil]
      by_cases ht : t ≠ ""
      · rw [if_pos ht]
        have hall : (pageRecords did name (k + 1) t).filter (fun r => r.page == k + 1) =
            pageRecords did name (k + 1) t := by
          rw [List.filter_eq_self]
          intro a ha
          have := pageRecords_page did name (k + 1) t a ha
          simp [this]
        rw [hall, pageRecords_map_chunk_index]
        rw [pageRecords_length]
      · rw [if_neg ht]; rfl
    · have hblock : ((if t ≠ "" then pageRecords did name (k + 1) t else []).filter
          (fun r => r.page == p)) = [] := by
        rw [List.filter_eq_nil_iff]
        intro a ha
        by_cases ht : t ≠ ""
        · rw [if_pos ht] at ha
          have := pageRecords_page did name (k + 1) t a ha
          simp only [beq_iff_eq, this]
          omega
        · rw [if_neg ht] at ha; simp at ha
      rw [hblock, List.nil_append]
      exact ih (k + 1) p

theorem pdf_records_head (did : Int) (name : String) :
    ∀ (pages : List String) (k : ℕ) (r : ChunkRecord),
      ((List.enumFrom k pages).flatMap
        (fun pt => if pt.2 ≠ "" then pageRecords did name (pt.1 + 1) pt.2 else [])).head? =
          some r →
      r.chunk_index = 0 := by
  intro pages
  induction pages with
  | nil => intro k r h; simp at h
  | cons t ps ih =>
    intro k r h
    rw [List.enumFrom_cons, List.flatMap_cons] at h
    by_cases ht : t ≠ ""
    · rw [if_pos ht] at h
      cases hb : pageRecords did name (k + 1) t with
      | nil =>
        rw [hb, List.nil_append] at h
        exact ih (k + 1) r h
      | cons b bl =>
        rw [hb, List.cons_append, List.head?_cons] at h
        have hrb : r = b := by simpa using h.symm
        rw [hrb]
        exact pageRecords_head did name (k + 1) t b (by rw [hb]; rfl)
    · rw [if_neg ht, List.nil_append] at h
      exact ih (k + 1) r h

/-- C8 (claim): within one `process_document` call on a PDF, the extracted
records are in ascending (page, chunk_index) lexicographic order; within each
page the chunk_index values enumerate the page's chunks from 0 (resetting at
every page); the first appended record has chunk_index 0; and the appended
block is exactly `extractRecords`, independent of the prior state — so after
a second sequential ingest the second document's first page starts at
chunk_index 0. -/
theorem process_document_order (did : Int) (name : String) (pages : List String) :
    List.Pairwise
      (fun a b => a.page < b.page ∨ (a.page = b.page ∧ a.chunk_index < b.chunk_index))
      (extractRecords did name (.pdf pages)) ∧
    (∀ p : ℕ,
      (((extractRecords did name (.pdf pages)).filter (fun r => r.page == p)).map
        (fun r => r.chunk_index)) =
      List.range (((extractRecords did name (.pdf pages)).filter
        (fun r => r.page == p)).length)) ∧
    (∀ r : ChunkRecord, (extractRecords did name (.pdf pages)).head? = some r →
      r.chunk_index = 0) ∧
    (∀ (V : Type) (embed : String → V) (s s' : ProcState V) (res : IngestResult),
      process_document embed s (.pdf pages) did name = (s', Except.ok res) →
      s'.metadata = s.metadata ++ extractRecords did name (.pdf pages)) := by
  have hstep : extractRecords did name (.pdf pages) =
      (List.enumFrom 0 pages).flatMap
        (fun pt => if pt.2 ≠ "" then pageRecords did name (pt.1 + 1) pt.2 else []) := by
    rw [← List.enum_eq_enumFrom]; rfl
  refine ⟨?_, ?_, ?_, ?_⟩
  · rw [hstep]; exact pdf_records_pairwise did name pages 0
  · intro p; rw [hstep]; exact pdf_records_filter did name pages 0 p
  · intro r h; rw [hstep] at h; exact pdf_records_head did name pages 0 r h
  · intro V embed s s' res h
    by_cases he : ((extractRecords did name (.pdf pages)).map (fun r => r.content)).isEmpty
    · rw [process_document_fail embed s (.pdf pages) did name he] at h
      exact absurd (congrArg Prod.snd h) (by simp)
    · rw [process_document_eval embed s (.pdf pages) did name he] at h
      rw [Prod.mk.injEq] at h
      exact (congrArg ProcState.metadata h.1).symm

/-- Concrete evaluation of the extraction on a three-page PDF whose middle
page extracts no text. -/
theorem extract_pdf_example :
    extractRecords 7 "d.pdf" (.pdf ["a b", "", "c"]) =
      [⟨7, "d.pdf", 1, 0, "a b"⟩, ⟨7, "d.pdf", 3, 0, "c"⟩] := by
  have hstep : extractRecords 7 "d.pdf" (.pdf ["a b", "", "c"]) =
      ["a b", "", "c"].enum.flatMap
        (fun pt => if pt.2 ≠ "" then pageRecords 7 "d.pdf" (pt.1 + 1) pt.2 else []) := rfl
  have henum : (["a b", "", "c"].enum) = [(0, "a b"), (1, ""), (2, "c")] := by
    simp [List.enum, List.enumFrom]
  have h1 : pageRecords 7 "d.pdf" 1 "a b" = [⟨7, "d.pdf", 1, 0, "a b"⟩] := by
    simp [pageRecords, chunk_text, chunkWindowsFrom, splitWords, splitAcc,
      List.enum, List.enumFrom]
    decide
  have h3 : pageRecords 7 "d.pdf" 3 "c" = [⟨7, "d.pdf", 3, 0, "c"⟩] := by
    simp [pageRecords, chunk_text, chunkWindowsFrom, splitWords, splitAcc,
      List.enum, List.enumFrom]
    decide
  rw [hstep, henum]
  simp only [List.flatMap_cons, List.flatMap_nil]
  rw [h1, h3]
  decide

/-- Witness for C8: ingesting the three-page PDF `["a b", "", "c"]` (middle
page empty) after an unrelated record appends exactly the extracted block. -/
theorem process_document_order_witness :
    (⟨⟨384, [3, 1]⟩,
      [⟨9, "z.txt", 1, 0, "q"⟩, ⟨7, "d.pdf", 1, 0, "a b"⟩, ⟨7, "d.pdf", 3, 0, "c"⟩]⟩ :
        ProcState ℕ).metadata =
      [⟨9, "z.txt", 1, 0, "q"⟩] ++ extractRecords 7 "d.pdf" (.pdf ["a b", "", "c"]) :=
  (process_document_order 7 "d.pdf" ["a b", "", "c"]).2.2.2 ℕ (fun t => t.length)
    ⟨⟨384, []⟩, [⟨9, "z.txt", 1, 0, "q"⟩]⟩
    ⟨⟨384, [3, 1]⟩,
      [⟨9, "z.txt", 1, 0, "q"⟩, ⟨7, "d.pdf", 1, 0, "a b"⟩, ⟨7, "d.pdf", 3, 0, "c"⟩]⟩
    ⟨2, 2, 7⟩
    (by rw [process_document_eval (fun t => t.length) _ (.pdf ["a b", "", "c"]) 7 "d.pdf"
          (by rw [extract_pdf_example]; decide)]
        rw [extract_pdf_example]
        rfl)

/-! ## Search: scoping, bounds, and the desync guard -/

/-- Every result of `DocumentProcessor.search` is built from a metadata
record at a valid row index that passed the `document_id` filter. -/
theorem search_mem_metadata {V : Type} (dist : V → V → ℚ) (embed : String → V)
    (s : ProcState V) (query : String) (document_id : Option Int) (k : ℕ) :
    ∀ r ∈ DocumentProcessor.search dist embed s query document_id k,
      ∃ i, ∃ hi : i < s.metadata.length,
        (document_id = none ∨
          document_id = some ((s.metadata.get ⟨i, hi⟩).document_id)) ∧
        r.content = (s.metadata.get ⟨i, hi⟩).content ∧
        r.pdf_name = (s.metadata.get ⟨i, hi⟩).pdf_name ∧
        r.page = (s.metadata.get ⟨i, hi⟩).page := by
  intro r hr
  simp only [DocumentProcessor.search] at hr
  obtain ⟨c, _, hfc⟩ := List.mem_filterMap.mp hr
  split at hfc
  · rename_i hlt
    split at hfc
    · rename_i hdoc
      refine ⟨c.1, hlt, hdoc, ?_, ?_, ?_⟩ <;> rw [← Option.some.inj hfc]
    · exact absurd hfc (by simp)
  · exact absurd hfc (by simp)

/-- The candidate list handed to the filter has at most `k` entries and at
most as many entries as the index holds vectors. -/
theorem faiss_search_length_le {V : Type} (dist : V → V → ℚ) (idx : FaissIndex V)
    (q : V) (k : ℕ) :
    (idx.search dist q k).length ≤ k ∧
    (idx.search dist q k).length ≤ idx.vecs.length := by
  constructor
  · exact List.length_take_le k _
  · unfold FaissIndex.search
    rw [List.length_take]
    have hsort : (List.insertionSort searchLe
        (idx.vecs.enum.map (fun iv => (iv.1, dist q iv.2)))).length =
        idx.vecs.length := by
      rw [(List.perm_insertionSort searchLe _).length_eq]
      rw [List.length_map, List.enum_length]
    rw [hsort]
    omega

/-- C5 (claim): `search` returns at most `k` results and at most as many
results as the index holds vectors, and every returned result is built from
a metadata record at a valid candidate row index (the guard skips candidate
indices beyond the metadata length). -/
theorem search_result_bounds {V : Type} (dist : V → V → ℚ) (embed : String → V)
    (s : ProcState V) (query : String) (document_id : Option Int) (k : ℕ) :
    (DocumentProcessor.search dist embed s query document_id k).length ≤ k ∧
    (DocumentProcessor.search dist embed s query document_id k).length ≤
      s.index.vecs.length ∧
    ∀ r ∈ DocumentProcessor.search dist embed s query document_id k,
      ∃ i, ∃ hi : i < s.metadata.length,
        r.content = (s.metadata.get ⟨i, hi⟩).content ∧
        r.pdf_name = (s.metadata.get ⟨i, hi⟩).pdf_name ∧
        r.page = (s.metadata.get ⟨i, hi⟩).page := by
  have hb := faiss_search_length_le dist s.index (embed query) k
  have hlen : (DocumentProcessor.search dist embed s query document_id k).length ≤
      (s.index.search dist (embed query) k).length := by
    simp only [DocumentProcessor.search]
    exact List.length_filterMap_le _ _
  refine ⟨by omega, by omega, ?_⟩
  intro r hr
  obtain ⟨i, hi, _, hfields⟩ := search_mem_metadata dist embed s query document_id k r hr
  exact ⟨i, hi, hfields⟩

/-- Witness for C5: a three-vector index searched with `k = 2` returns at
most two results and no more than the index size. -/
theorem search_result_bounds_witness :
    (DocumentProcessor.search (V := Unit) (fun _ _ => 0) (fun _ => ())
      ⟨⟨384, [(), (), ()]⟩, [⟨5, "a", 1, 0, "x"⟩, ⟨6, "a", 1, 1, "y"⟩, ⟨6, "a", 1, 2, "z"⟩]⟩
      "q" none 2).length ≤
      (⟨⟨384, [(), (), ()]⟩,
        [⟨5, "a", 1, 0, "x"⟩, ⟨6, "a", 1, 1, "y"⟩, ⟨6, "a", 1, 2, "z"⟩]⟩ :
          ProcState Unit).index.vecs.length :=
  (search_result_bounds (fun _ _ => 0) (fun _ => ())
    ⟨⟨384, [(), (), ()]⟩, [⟨5, "a", 1, 0, "x"⟩, ⟨6, "a", 1, 1, "y"⟩, ⟨6, "a", 1, 2, "z"⟩]⟩
    "q" none 2).2.1

/-- C3 (claim): with a `document_id` scope, every returned result comes from
a metadata record carrying that `document_id`; the result list never exceeds
`k`; and the shortfall is real — there is a state whose index holds at least
`k` vectors for which the scoped search returns fewer than `k` results (no
re-query backfills the shortfall). -/
theorem search_document_id_filter {V : Type} (dist : V → V → ℚ) (embed : String → V)
    (s : ProcState V) (query : String) (X : Int) (k : ℕ) :
    (∀ r ∈ DocumentProcessor.search dist embed s query (some X) k,
      ∃ i, ∃ hi : i < s.metadata.length,
        (s.metadata.get ⟨i, hi⟩).document_id = X ∧
        r.content = (s.metadata.get ⟨i, hi⟩).content ∧
        r.pdf_name = (s.metadata.get ⟨i, hi⟩).pdf_name ∧
        r.page = (s.metadata.get ⟨i, hi⟩).page) ∧
    (DocumentProcessor.search dist embed s query (some X) k).length ≤ k ∧
    (∃ (s2 : ProcState Unit) (q2 : String) (X2 : Int) (k2 : ℕ),
      k2 ≤ s2.index.vecs.length ∧
      (DocumentProcessor.search (fun _ _ => 0) (fun _ => ()) s2 q2 (some X2) k2).length <
        k2) := by
  refine ⟨?_, (search_result_bounds dist embed s query (some X) k).1, ?_⟩
  · intro r hr
    obtain ⟨i, hi, hdoc, hfields⟩ :=
      search_mem_metadata dist embed s query (some X) k r hr
    refine ⟨i, hi, ?_, hfields⟩
    rcases hdoc with hdoc | hdoc
    · exact absurd hdoc (by simp)
    · exact (Option.some.inj hdoc).symm
  · refine ⟨⟨⟨384, [(), (), ()]⟩,
      [⟨5, "a", 1, 0, "x"⟩, ⟨6, "a", 1, 1, "y"⟩, ⟨6, "a", 1, 2, "z"⟩]⟩, "q", 5, 3, ?_, ?_⟩
    · decide
    · decide

/-- Witness for C3: the scoped search on a concrete three-record state stays
within `k`. -/
theorem search_document_id_filter_witness :
    (DocumentProcessor.search (V := Unit) (fun _ _ => 0) (fun _ => ())
      ⟨⟨384, [(), (), ()]⟩, [⟨5, "a", 1, 0, "x"⟩, ⟨6, "a", 1, 1, "y"⟩, ⟨6, "a", 1, 2, "z"⟩]⟩
      "q" (some 5) 3).length ≤ 3 :=
  (search_document_id_filter (fun _ _ => 0) (fun _ => ())
    ⟨⟨384, [(), (), ()]⟩, [⟨5, "a", 1, 0, "x"⟩, ⟨6, "a", 1, 1, "y"⟩, ⟨6, "a", 1, 2, "z"⟩]⟩
    "q" 5 3).2.1

/-! ## Persistence: save/load round trip -/

/-- C6 (claim): saving the state with `_save_index`, reloading the pair with
`_load_existing_index`, and searching produces exactly the results of
searching the original state. -/
theorem search_save_load_roundtrip {V : Type} (dist : V → V → ℚ) (embed : String → V)
    (s : ProcState V) (fs : DiskFiles V) (query : String) (document_id : Option Int)
    (k : ℕ) :
    DocumentProcessor.search dist embed
      ⟨(load_existing_index (save_index s fs)).1, (load_existing_index (save_index s fs)).2⟩
      query document_id k =
    DocumentProcessor.search dist embed s query document_id k := by
  have h : load_existing_index (save_index s fs) = (s.index, s.metadata) := rfl
  rw [h]

/-- Witness for C6 at a concrete one-record state and previously empty disk. -/
theorem search_save_load_roundtrip_witness :
    DocumentProcessor.search (V := Unit) (fun _ _ => 0) (fun _ => ())
      ⟨(load_existing_index
          (save_index ⟨⟨384, [()]⟩, [⟨5, "a", 1, 0, "x"⟩]⟩ ⟨none, none⟩)).1,
        (load_existing_index
          (save_index ⟨⟨384, [()]⟩, [⟨5, "a", 1, 0, "x"⟩]⟩ ⟨none, none⟩)).2⟩
      "q" none 3 =
    DocumentProcessor.search (fun _ _ => 0) (fun _ => ())
      ⟨⟨384, [()]⟩, [⟨5, "a", 1, 0, "x"⟩]⟩ "q" none 3 :=
  search_save_load_roundtrip (fun _ _ => 0) (fun _ => ())
    ⟨⟨384, [()]⟩, [⟨5, "a", 1, 0, "x"⟩]⟩ ⟨none, none⟩ "q" none 3

/-- C10 (counterexample): `_load_existing_index` can return an index paired
with metadata of a different length — when both files are present but
desynchronized on disk, the pair loads as-is. -/
theorem load_existing_index_desync_counterexample :
    (load_existing_index (⟨some ⟨384, [()]⟩, some []⟩ : DiskFiles Unit)).1.vecs.length ≠
      (load_existing_index (⟨some ⟨384, [()]⟩, some []⟩ : DiskFiles Unit)).2.length := by
  decide

/-- C10 (amended): whenever either file is missing — in particular a readable
index file with a missing metadata file — `_load_existing_index` discards
anything already read and returns the fresh empty 384-dimension index with
empty metadata, so the missing-file fallback covers both reads as one unit
and never pairs a loaded index with fresh metadata. -/
theorem load_missing_file_fresh {V : Type} (fs : DiskFiles V)
    (h : fs.index_file = none ∨ fs.metadata_file = none) :
    load_existing_index fs = (IndexFlatL2 V 384, []) := by
  obtain ⟨fi, fm⟩ := fs
  cases fi with
  | none => rfl
  | some idx =>
    cases fm with
    | none => rfl
    | some md =>
      rcases h with h | h <;> exact absurd h (by simp)

/-- Witness for the amended C10: index file present, metadata file missing. -/
theorem load_missing_file_fresh_witness :
    load_existing_index (⟨some ⟨384, [()]⟩, none⟩ : DiskFiles Unit) =
      (IndexFlatL2 Unit 384, []) :=
  load_missing_file_fresh ⟨some ⟨384, [()]⟩, none⟩ (Or.inr rfl)

end PdfSearch
